import Mathlib

/-!
Verification of the minitorch tensor autodifferentiation dispatch layer
(`minitorch/tensor_functions.py`).

Tensors are embedded as a shape (list of dimension sizes) together with a
flattened row-major storage of exact rationals (modelling the float values),
plus a numeric backend tag (`0` models the default `SimpleBackend`).
Backend primitives (elementwise map/zip with broadcasting, dimension
reduction, matrix multiply, stride-level permute/view) are external to the
source file under study; they are modelled from the specification's
primitive-backend contract and marked as such.
-/

namespace MiniTorch

abbrev Storage := List ℚ

abbrev Shape := List Nat

/-- Logical tensor value: shape, row-major flattened storage, backend tag
(`0` is the default `SimpleBackend`). -/
structure Tensor where
  shape : Shape
  storage : Storage
  backend : Nat
  deriving Repr, DecidableEq

/-- Number of elements of a tensor (`TensorData.size`), the product of the
dimension sizes. -/
def sizeT (t : Tensor) : Nat := t.shape.prod

/-- Row-major flat index of a multi-index `idx` in a tensor of shape `s`. -/
def fromIndex : Shape → List Nat → Nat
  | [], _ => 0
  | _ :: _, [] => 0
  | _ :: ds, i :: is => i * ds.prod + fromIndex ds is

/-- Row-major multi-index of flat position `t` in a tensor of shape `s`. -/
def toIndex : Shape → Nat → List Nat
  | [], _ => []
  | _ :: ds, t => (t / ds.prod) :: toIndex ds (t % ds.prod)

/-- Modelled from the spec: broadcasting of a single aligned dimension pair
("a dimension of size 1 broadcasts to match the other operand's size at that
position; mismatched, non-1 sizes are a shape error"). -/
def bcDim (x y : Nat) : Option Nat :=
  if x = y then some x else if x = 1 then some y else if y = 1 then some x else none

/-- Broadcast of two reversed shapes, aligned from the front (that is, from
the trailing edge of the original shapes); a missing dimension is treated as
present on the other operand. -/
def bcRev : List Nat → List Nat → Option (List Nat)
  | [], ys => some ys
  | x :: xs, [] => some (x :: xs)
  | x :: xs, y :: ys =>
    match bcDim x y, bcRev xs ys with
    | some d, some rest => some (d :: rest)
    | _, _ => none

/-- Modelled from the spec: the broadcast shape of two shapes, "dimensions
are aligned from the trailing edge". `none` is a fatal shape error. -/
def bcShape (a b : Shape) : Option Shape :=
  (bcRev a.reverse b.reverse).map List.reverse

/-- Value of tensor `t` at the position of `outShape`-flat-index `flat`,
reading through broadcasting: leading extra dimensions of `outShape` are
dropped, and a size-1 dimension of `t` always reads index 0. -/
def bGet (t : Tensor) (outShape : Shape) (flat : Nat) : ℚ :=
  let idx := (toIndex outShape flat).drop (outShape.length - t.shape.length)
  let idx2 := List.zipWith (fun (i d : Nat) => if d = 1 then 0 else i) idx t.shape
  t.storage.getD (fromIndex t.shape idx2) 0

/-- Modelled from the spec: the backend `zip` primitive, an "elementwise
binary transform with broadcasting".  A broadcast shape error is fatal in
the source; it is modelled by the empty tensor. -/
def zipB (f : ℚ → ℚ → ℚ) (a b : Tensor) : Tensor :=
  match bcShape a.shape b.shape with
  | some s => ⟨s, (List.range s.prod).map (fun t => f (bGet a s t) (bGet b s t)), a.backend⟩
  | none => ⟨[], [], a.backend⟩

/-- Modelled from the spec: the backend `map` primitive, an "elementwise
unary transform, same shape as input". -/
def mapT (f : ℚ → ℚ) (a : Tensor) : Tensor :=
  ⟨a.shape, a.storage.map f, a.backend⟩

/-- The `zeros` tensor builder of the source: a zero tensor of the given
shape on the default backend. -/
def zerosT (s : Shape) : Tensor := ⟨s, List.replicate s.prod 0, 0⟩

/-- The `tensor` builder of the source applied to a one-element list of
values: shape `(1,)`, default backend. -/
def tensorOf1 (v : ℚ) : Tensor := ⟨[1], [v], 0⟩

/-- Conversion of a stored rational to a dimension number, modelling
Python's `int()` on the (nonnegative, integral) floats that hold dimension
indices. -/
def qToDim (q : ℚ) : Nat := q.floor.toNat

/-- Modelled from the spec: the backend `add_reduce` primitive, an instance
of `reduce(binary_fn, tensor, dim)`, which "collapses the given dimension to
size 1 by folding with `binary_fn`"; for `add_reduce` the fold is a sum. -/
def addReduce (a : Tensor) (d : Nat) : Tensor :=
  let outShape := a.shape.set d 1
  ⟨outShape,
    (List.range outShape.prod).map (fun t =>
      ∑ j ∈ Finset.range (a.shape.getD d 1),
        a.storage.getD (fromIndex a.shape ((toIndex outShape t).set d j)) 0),
    a.backend⟩

/-- The list of dimensions `Sum.forward` extracts from the `dim` tensor:
all entries of its storage when its size exceeds one, otherwise the single
entry at position 0. -/
def parseDims (d : Tensor) : List Nat :=
  if sizeT d > 1 then d.storage.map qToDim else [qToDim (d.storage.getD 0 0)]

/-- Sequential reduction of `Sum.forward`: fold `add_reduce` over the listed
dimensions, one at a time. -/
def seqReduce (a : Tensor) (dims : List Nat) : Tensor :=
  dims.foldl addReduce a

/-- Embedding of `Sum.forward` from the source: with `dim` absent the input
is returned unchanged; otherwise the listed dimensions are reduced
sequentially and, when the reduced result has size one, a fresh shape-`(1,)`
tensor holding its first storage element is built with the `tensor` builder
(default backend). -/
def sumForward (a : Tensor) (dim : Option Tensor) : Tensor :=
  match dim with
  | none => a
  | some d =>
    let result := seqReduce a (parseDims d)
    if sizeT result > 1 then result else tensorOf1 (result.storage.getD 0 0)

/-- Modelled from the spec: the backend `relu_map` primitive, the
elementwise map of "max(x,0)". -/
def reluForward (a : Tensor) : Tensor := mapT (fun x => max x 0) a

/-- Modelled from the spec: the backend `relu_back_zip` primitive.  The
spec's operation table forces the convention that a `*_back_zip` primitive
multiplies by the incoming gradient (its Invert row gives
`inv_back_zip(x, g) = g * (-1/x^2)` for the bare call
`inv_back_zip(t1, grad_output)`), so `relu_back_zip(x, d) = d * [x > 0]`. -/
def reluBackZip (x d : Tensor) : Tensor :=
  zipB (fun xv dv => if 0 < xv then dv else 0) x d

/-- Embedding of `ReLU.backward` from the source: it returns
`grad_output * relu_back_zip(a, grad_output)`, with `a` the input saved by
the forward pass. -/
def reluBackward (a grad : Tensor) : Tensor :=
  zipB (fun u v => u * v) grad (reluBackZip a grad)

/-- Modelled from the spec: the backend `lt_zip` primitive, the elementwise
less-than comparison (1 for true, 0 for false, modelling the float-encoded
booleans). -/
def ltForward (a b : Tensor) : Tensor :=
  zipB (fun x y => if x < y then 1 else 0) a b

/-- Embedding of `LT.backward` from the source: a pair of zero tensors both
built with `zeros(grad_output.shape)`. -/
def ltBackward (grad : Tensor) : Tensor × Tensor :=
  (zerosT grad.shape, zerosT grad.shape)

/-- Embedding of `EQ.backward` from the source: a pair of zero tensors both
built with `zeros(grad_output.shape)`. -/
def eqBackward (grad : Tensor) : Tensor × Tensor :=
  (zerosT grad.shape, zerosT grad.shape)

/-- Embedding of `IsClose.backward` from the source: a pair of zero tensors
both built with `zeros(grad_output.shape)`. -/
def isCloseBackward (grad : Tensor) : Tensor × Tensor :=
  (zerosT grad.shape, zerosT grad.shape)

/-- Computation Context: the no-gradient flag together with the ordered
saved values (modelled at storage level); `save_for_backward` fills the
saved list. -/
structure Ctx where
  noGrad : Bool
  saved : List Storage
  deriving Repr, DecidableEq

/-- Tensor Node: a tensor value plus an optional Graph Edge (History),
which records the producing variant (as a numeric tag), the captured
Context, and the ordered input nodes. -/
inductive Var : Type where
  | mk (data : Tensor) (history : Option (Nat × Ctx × List Var))

/-- Value of a node. -/
def Var.data : Var → Tensor
  | .mk d _ => d

/-- Graph Edge of a node, absent for plain values. -/
def Var.history : Var → Option (Nat × Ctx × List Var)
  | .mk _ h => h

/-- Modelled from the spec: `Tensor.requires_grad()` (tensor.py is outside
src/), true exactly when the node carries a History. -/
def Var.requiresGrad (v : Var) : Bool := v.history.isSome

/-- Modelled from the spec: `Tensor.detach()` (tensor.py is outside src/),
the same value with gradient tracking stripped. -/
def Var.detach (v : Var) : Var := .mk v.data none

/-- Embedding of `Function.apply` from the source: one loop accumulates the
OR of the inputs' requires-gradient flags and the detached raw values; a
Context is created with the negated flag; the forward transform (abstracted
as a function returning the values it saves and the output tensor) runs on
the raw values; a History is attached exactly when some input required
gradients. -/
def applyF (tag : Nat) (fwd : List Var → List Storage × Tensor) (vals : List Var) : Var :=
  let st := vals.foldl
    (fun (s : Bool × List Var) v => (s.1 || v.requiresGrad, s.2 ++ [v.detach])) (false, [])
  let ctx : Ctx := ⟨!st.1, []⟩
  let fc := fwd st.2
  let ctx2 : Ctx := ⟨ctx.noGrad, fc.1⟩
  Var.mk fc.2 (if st.1 then some (tag, ctx2, vals) else none)

/-- The accumulating loop of `apply` computes the OR of the requires-grad
flags and the list of detached inputs. -/
theorem applyF_fold_spec (vals : List Var) (b : Bool) (acc : List Var) :
    vals.foldl
      (fun (s : Bool × List Var) v => (s.1 || v.requiresGrad, s.2 ++ [v.detach])) (b, acc)
      = (b || vals.any Var.requiresGrad, acc ++ vals.map Var.detach) := by
  induction vals generalizing b acc with
  | nil => simp
  | cons v vs ih => simp [ih, Bool.or_assoc]

/-- Claim C1: the claim says `Sum.forward` with `dim = None` returns a single
scalar tensor holding the arithmetic sum of all elements.  The source instead
returns the input tensor unchanged (`if dim is None: return a`): on the
two-element input `[1, 2]` the result keeps shape `[2]` and storage `[1, 2]`,
not shape `[1]` with storage `[3]`. -/
theorem c1_sum_forward_none_returns_input :
    (∀ a : Tensor, sumForward a none = a) ∧
    (sumForward ⟨[2], [1, 2], 0⟩ none).shape = [2] ∧
    (sumForward ⟨[2], [1, 2], 0⟩ none).storage = [1, 2] ∧
    decide (([2] : Shape) = [1]) = false ∧
    decide (([1, 2] : Storage) = [3]) = false :=
  ⟨fun _ => rfl, rfl, rfl, rfl, rfl⟩

/-- Claim C2: the claim says `ReLU.backward` returns
`grad_output * [x > 0]`.  The source computes
`grad_output * relu_back_zip(a, grad_output)`, which multiplies by the
incoming gradient twice: at input `x = 2` with upstream gradient `3` the
code produces `9 = 3^2`, not the claimed `3`. -/
theorem c2_relu_backward_squares_gradient :
    reluBackward ⟨[1], [2], 0⟩ ⟨[1], [3], 0⟩ = ⟨[1], [9], 0⟩ ∧
    decide ((9 : ℚ) = 3) = false := by
  refine ⟨?_, rfl⟩
  norm_num [reluBackward, reluBackZip, zipB, bcShape, bcRev, bcDim, bGet, toIndex, fromIndex]

/-- Claim C3 counterexample: on inputs `a` of shape `[1]` and `b` of shape
`[2]`, the broadcast forward output (hence `grad_output`) has shape `[2]`,
and `LT.backward` returns a first gradient of shape `[2]`, not the input
shape `[1]` claimed. -/
theorem c3_comparison_backward_shape_cex :
    ltForward ⟨[1], [0], 0⟩ ⟨[2], [1, -1], 0⟩ = ⟨[2], [1, 0], 0⟩ ∧
    (ltBackward ⟨[2], [1, 1], 0⟩).1.shape = [2] ∧
    decide (([2] : Shape) = [1]) = false :=
  ⟨rfl, rfl, rfl⟩

/-- Claim C3 as amended: the backward of each comparison operation
(less-than, equal, is-close) returns a pair of all-zero tensors whose shape
is the shape of `grad_output` (the output's shape); matching gradients back
to differently-shaped broadcast inputs is left to the backward engine. -/
theorem c3_comparison_backward_zero_output_shaped (grad : Tensor) :
    (ltBackward grad).1.shape = grad.shape ∧ (ltBackward grad).2.shape = grad.shape ∧
    (eqBackward grad).1.shape = grad.shape ∧ (eqBackward grad).2.shape = grad.shape ∧
    (isCloseBackward grad).1.shape = grad.shape ∧
    (isCloseBackward grad).2.shape = grad.shape ∧
    (ltBackward grad).1.storage.all (fun q => decide (q = 0)) = true ∧
    (ltBackward grad).2.storage.all (fun q => decide (q = 0)) = true ∧
    (eqBackward grad).1.storage.all (fun q => decide (q = 0)) = true ∧
    (eqBackward grad).2.storage.all (fun q => decide (q = 0)) = true ∧
    (isCloseBackward grad).1.storage.all (fun q => decide (q = 0)) = true ∧
    (isCloseBackward grad).2.storage.all (fun q => decide (q = 0)) = true := by
  refine ⟨rfl, rfl, rfl, rfl, rfl, rfl, ?_, ?_, ?_, ?_, ?_, ?_⟩ <;>
    · simp only [ltBackward, eqBackward, isCloseBackward, zerosT, List.all_eq_true]
      intro q hq
      simp [List.eq_of_mem_replicate hq]

/-- Claim C4: `apply` attaches a History to the result exactly when some
input requires gradients (so the result's requires-grad flag is the OR of
the inputs'); the Context it creates carries the negation of that OR as its
no-gradient flag and the History references the original tracked inputs;
and the forward transform runs on the detached copies of the inputs. -/
theorem c4_apply_dispatch_spec (tag : Nat)
    (fwd : List Var → List Storage × Tensor) (vals : List Var) :
    ((applyF tag fwd vals).requiresGrad = vals.any Var.requiresGrad) ∧
    ((applyF tag fwd vals).history.isSome = vals.any Var.requiresGrad) ∧
    (∀ t c ins, (applyF tag fwd vals).history = some (t, c, ins) →
      t = tag ∧ c.noGrad = !(vals.any Var.requiresGrad) ∧ ins = vals) ∧
    ((applyF tag fwd vals).data = (fwd (vals.map Var.detach)).2) := by
  have hf := applyF_fold_spec vals false []
  simp only [applyF, hf, Bool.false_or, List.nil_append]
  cases hany : vals.any Var.requiresGrad with
  | false =>
    refine ⟨rfl, rfl, ?_, rfl⟩
    intro t c ins h
    simp [Var.history] at h
  | true =>
    refine ⟨rfl, rfl, ?_, rfl⟩
    intro t c ins h
    simp only [Var.history, if_true, Option.some.injEq, Prod.mk.injEq] at h
    obtain ⟨h1, h2, h3⟩ := h
    refine ⟨h1.symm, ?_, h3.symm⟩
    rw [← h2]

/-- Witness for claim C4: on one grad-requiring input node the attached
History carries the tag, a Context with no-gradient flag false, and the
original input list. -/
theorem c4_apply_dispatch_spec_witness :
    (0 : Nat) = 0 ∧
    Ctx.noGrad ⟨false, []⟩
      = !([Var.mk ⟨[1], [5], 0⟩ (some (0, ⟨true, []⟩, []))].any Var.requiresGrad) ∧
    [Var.mk ⟨[1], [5], 0⟩ (some (0, ⟨true, []⟩, []))]
      = [Var.mk ⟨[1], [5], 0⟩ (some (0, ⟨true, []⟩, []))] :=
  (c4_apply_dispatch_spec 0 (fun _ => ([], ⟨[1], [5], 0⟩))
      [Var.mk ⟨[1], [5], 0⟩ (some (0, ⟨true, []⟩, []))]).2.2.1
    0 ⟨false, []⟩ [Var.mk ⟨[1], [5], 0⟩ (some (0, ⟨true, []⟩, []))] rfl

/-- Claim C9: with a present `dim`, when the sequential reduction over the
listed dimensions has exactly one element, `Sum.forward` returns a freshly
built tensor of shape `(1,)` holding that element on the default backend
(backend tag 0), discarding the reduced tensor's all-ones shape and the
input's backend; when the reduction has more than one element the reduced
tensor itself is returned. -/
theorem c9_sum_forward_dim_scalar_rebuild (a d : Tensor) :
    (sizeT (seqReduce a (parseDims d)) = 1 →
      sumForward a (some d)
        = ⟨[1], [(seqReduce a (parseDims d)).storage.getD 0 0], 0⟩) ∧
    (1 < sizeT (seqReduce a (parseDims d)) →
      sumForward a (some d) = seqReduce a (parseDims d)) := by
  constructor
  · intro h
    simp [sumForward, h, tensorOf1]
  · intro h
    simp [sumForward, h]

/-- Witness for claim C9: summing the 2-by-2 tensor `[1,2,3,4]` on backend
tag 1 over dimensions 0 and 1 reduces to a single element, and the result
is the shape-`(1,)` tensor `[10]` on the default backend. -/
theorem c9_sum_forward_dim_scalar_rebuild_witness :
    sizeT (seqReduce ⟨[2, 2], [1, 2, 3, 4], 1⟩ (parseDims ⟨[2], [0, 1], 0⟩)) = 1 ∧
    sumForward ⟨[2, 2], [1, 2, 3, 4], 1⟩ (some ⟨[2], [0, 1], 0⟩)
      = ⟨[1], [(seqReduce ⟨[2, 2], [1, 2, 3, 4], 1⟩
          (parseDims ⟨[2], [0, 1], 0⟩)).storage.getD 0 0], 0⟩ :=
  ⟨by decide, (c9_sum_forward_dim_scalar_rebuild ⟨[2, 2], [1, 2, 3, 4], 1⟩
      ⟨[2], [0, 1], 0⟩).1 (by decide)⟩

/-- Stride-level tensor data: storage buffer, shape and strides.  This is
the view-level representation that `permute` and `view` act on. -/
structure TensorData where
  storage : Storage
  shape : Shape
  strides : List Nat
  deriving Repr, DecidableEq

/-- Selection of the entries of `l` at the positions listed in `p`; both
the permuted shape and the permuted strides arise this way. -/
def applyPermSel (p l : List Nat) : List Nat :=
  p.map (fun i => l.getD i 0)

/-- Modelled from the spec: `TensorData.permute`, the backend's "view-level
axis reorder": entry `k` of the permuted shape and strides is entry
`order[k]` of the originals, the storage buffer is untouched. -/
def permuteTD (td : TensorData) (p : List Nat) : TensorData :=
  ⟨td.storage, applyPermSel p td.shape, applyPermSel p td.strides⟩

/-- The inverse-permutation loop of `Permute.backward` in the source:
`reverse = [0] * len(orders)`, then `reverse[orders[i]] = i` for each
index `i`. -/
def reversePerm (p : List Nat) : List Nat :=
  (List.range p.length).foldl (fun acc j => acc.set (p.getD j 0) j)
    (List.replicate p.length 0)

/-- Embedding of `Permute.backward` from the source: the gradient permuted
by the inverse order, paired with the zero gradient `0.0` for the order
argument. -/
def permuteBackward (orders : List Nat) (grad : TensorData) : TensorData × ℚ :=
  (permuteTD grad (reversePerm orders), 0)

/-- The set-loop of `reversePerm` preserves the length of its accumulator. -/
theorem foldlSet_length (p l acc : List Nat) :
    (l.foldl (fun acc j => acc.set (p.getD j 0) j) acc).length = acc.length := by
  induction l generalizing acc with
  | nil => rfl
  | cons x xs ih => rw [List.foldl_cons, ih, List.length_set]

/-- The reverse permutation list has the same length as the order list. -/
theorem reversePerm_length (p : List Nat) : (reversePerm p).length = p.length := by
  rw [reversePerm, foldlSet_length, List.length_replicate]

/-- Partial correctness of the `reversePerm` loop: after folding over
`range m`, position `p[i]` holds `i` for every `i < m`. -/
theorem reversePerm_aux (p : List Nat) (hnd : p.Nodup) (hlt : ∀ x ∈ p, x < p.length) :
    ∀ m, m ≤ p.length → ∀ i, i < m →
      ((List.range m).foldl (fun acc j => acc.set (p.getD j 0) j)
        (List.replicate p.length 0)).getD (p.getD i 0) 0 = i := by
  intro m
  induction m with
  | zero => intro _ i hi; exact absurd hi (Nat.not_lt_zero i)
  | succ m ih =>
    intro hm i hi
    rw [List.range_succ, List.foldl_append, List.foldl_cons, List.foldl_nil]
    have hm' : m < p.length := Nat.lt_of_succ_le hm
    by_cases hub : i = m
    · subst hub
      have hmem : p.getD i 0 ∈ p := by
        rw [List.getD_eq_getElem?_getD, List.getElem?_eq_getElem hm']
        exact List.getElem_mem hm'
      have hpos : p.getD i 0 <
          ((List.range i).foldl (fun acc j => acc.set (p.getD j 0) j)
            (List.replicate p.length 0)).length := by
        rw [foldlSet_length, List.length_replicate]
        exact hlt _ hmem
      rw [List.getD_eq_getElem?_getD, List.getElem?_set_self hpos]
      rfl
    · have him : i < m := Nat.lt_of_le_of_ne (Nat.lt_succ_iff.mp hi) hub
      have hi' : i < p.length := Nat.lt_trans him hm'
      have hneq : p.getD m 0 ≠ p.getD i 0 := by
        intro he
        rw [List.getD_eq_getElem?_getD, List.getD_eq_getElem?_getD,
          List.getElem?_eq_getElem hm', List.getElem?_eq_getElem hi'] at he
        simp only [Option.getD_some] at he
        have hinj := List.nodup_iff_injective_getElem.mp hnd
        have h2 : (⟨m, hm'⟩ : Fin p.length) = ⟨i, hi'⟩ := @hinj ⟨m, hm'⟩ ⟨i, hi'⟩ he
        exact hub (congrArg Fin.val h2).symm
      rw [List.getD_eq_getElem?_getD, List.getElem?_set_ne hneq,
        ← List.getD_eq_getElem?_getD]
      exact ih (Nat.le_of_succ_le hm) i him

/-- The list built by `Permute.backward` is a left inverse of the order:
position `p[i]` of `reversePerm p` holds `i`. -/
theorem reversePerm_getD (p : List Nat) (hnd : p.Nodup)
    (hlt : ∀ x ∈ p, x < p.length) (i : Nat) (hi : i < p.length) :
    (reversePerm p).getD (p.getD i 0) 0 = i :=
  reversePerm_aux p hnd hlt p.length Nat.le.refl i hi

/-- A duplicate-free order list with entries below its length hits every
position: the permutation is surjective. -/
theorem perm_getD_surj (p : List Nat) (hnd : p.Nodup) (hlt : ∀ x ∈ p, x < p.length)
    (k : Nat) (hk : k < p.length) : ∃ i, i < p.length ∧ p.getD i 0 = k := by
  have hsub : p.toFinset ⊆ Finset.range p.length := by
    intro x hx
    exact Finset.mem_range.mpr (hlt x (List.mem_toFinset.mp hx))
  have hcard : (Finset.range p.length).card ≤ p.toFinset.card := by
    rw [List.toFinset_card_of_nodup hnd, Finset.card_range]
  have heq : p.toFinset = Finset.range p.length :=
    Finset.eq_of_subset_of_card_le hsub hcard
  have hk' : k ∈ p := List.mem_toFinset.mp (heq ▸ Finset.mem_range.mpr hk)
  obtain ⟨n, hn, he⟩ := List.mem_iff_getElem.mp hk'
  refine ⟨n, hn, ?_⟩
  rw [List.getD_eq_getElem?_getD, List.getElem?_eq_getElem hn]
  exact he

/-- The order is in turn a left inverse of `reversePerm`: position
`reversePerm p [k]` of `p` holds `k`, and that position is in range. -/
theorem reversePerm_right (p : List Nat) (hnd : p.Nodup)
    (hlt : ∀ x ∈ p, x < p.length) (k : Nat) (hk : k < p.length) :
    p.getD ((reversePerm p).getD k 0) 0 = k ∧ (reversePerm p).getD k 0 < p.length := by
  obtain ⟨i, hi, he⟩ := perm_getD_surj p hnd hlt k hk
  have h1 : (reversePerm p).getD (p.getD i 0) 0 = i := reversePerm_getD p hnd hlt i hi
  rw [← he, h1]
  exact ⟨rfl, hi⟩

/-- Two lists of equal length agreeing on `getD` at every in-range position
are equal. -/
theorem ext_getD {α : Type} (d : α) (l1 l2 : List α) (hlen : l1.length = l2.length)
    (h : ∀ k, k < l1.length → l1.getD k d = l2.getD k d) : l1 = l2 := by
  apply List.ext_getElem hlen
  intro k h1 h2
  have h3 := h k h1
  rw [List.getD_eq_getElem?_getD, List.getD_eq_getElem?_getD,
    List.getElem?_eq_getElem h1, List.getElem?_eq_getElem h2] at h3
  simpa using h3

/-- Reading a `set` list at the written position yields the written value. -/
theorem getD_set_self_d {α : Type} (d : α) (l : List α) (p : Nat) (v : α)
    (hp : p < l.length) : (l.set p v).getD p d = v := by
  rw [List.getD_eq_getElem?_getD, List.getElem?_set_self hp]
  rfl

/-- Reading a `set` list away from the written position is unchanged. -/
theorem getD_set_ne_d {α : Type} (d : α) (l : List α) (p t : Nat) (v : α)
    (hne : p ≠ t) : (l.set p v).getD t d = l.getD t d := by
  rw [List.getD_eq_getElem?_getD, List.getElem?_set_ne hne, ← List.getD_eq_getElem?_getD]

/-- Reading a permuted selection at an in-range position reads the original
list through the order. -/
theorem applyPermSel_getD (p l : List Nat) (k : Nat) (hk : k < p.length) :
    (applyPermSel p l).getD k 0 = l.getD (p.getD k 0) 0 := by
  rw [applyPermSel, List.getD_eq_getElem?_getD, List.getElem?_map,
    List.getElem?_eq_getElem hk, List.getD_eq_getElem?_getD p k 0,
    List.getElem?_eq_getElem hk]
  rfl

/-- Selecting by the order and then by its reverse restores any list of
matching length. -/
theorem applyPermSel_roundtrip (p l : List Nat) (hnd : p.Nodup)
    (hlt : ∀ x ∈ p, x < p.length) (hlen : l.length = p.length) :
    applyPermSel (reversePerm p) (applyPermSel p l) = l := by
  have hlen1 : (applyPermSel (reversePerm p) (applyPermSel p l)).length = l.length := by
    rw [applyPermSel, List.length_map, reversePerm_length, hlen]
  apply ext_getD 0 _ _ hlen1
  intro k hk
  have hkp : k < p.length := by
    rw [hlen1, hlen] at hk
    exact hk
  have hkq : k < (reversePerm p).length := by
    rw [reversePerm_length]
    exact hkp
  obtain ⟨hr, hlt2⟩ := reversePerm_right p hnd hlt k hkp
  rw [applyPermSel_getD (reversePerm p) (applyPermSel p l) k hkq,
    applyPermSel_getD p l ((reversePerm p).getD k 0) hlt2, hr]

/-- Claim C6: `Permute.backward` applies the inverse permutation of the
saved order to `grad_output` (the loop-built `reverse` list is a two-sided
inverse of the order), hence permuting by `p` and then by its inverse
restores a tensor's original layout, and the backward pass applied to a
permuted gradient restores the gradient identically. -/
theorem c6_permute_backward_inverse_roundtrip (td grad : TensorData) (p : List Nat)
    (hnd : p.Nodup) (hlt : ∀ x ∈ p, x < p.length)
    (hs : td.shape.length = p.length) (hst : td.strides.length = p.length)
    (gs : grad.shape.length = p.length) (gst : grad.strides.length = p.length) :
    permuteBackward p grad = (permuteTD grad (reversePerm p), 0) ∧
    (∀ i, i < p.length → (reversePerm p).getD (p.getD i 0) 0 = i) ∧
    (∀ k, k < p.length → p.getD ((reversePerm p).getD k 0) 0 = k) ∧
    permuteTD (permuteTD td p) (reversePerm p) = td ∧
    (permuteBackward p (permuteTD grad p)).1 = grad := by
  refine ⟨rfl, fun i hi => reversePerm_getD p hnd hlt i hi,
    fun k hk => (reversePerm_right p hnd hlt k hk).1, ?_, ?_⟩
  · show (⟨td.storage, applyPermSel (reversePerm p) (applyPermSel p td.shape),
      applyPermSel (reversePerm p) (applyPermSel p td.strides)⟩ : TensorData) = td
    rw [applyPermSel_roundtrip p _ hnd hlt hs, applyPermSel_roundtrip p _ hnd hlt hst]
  · show (⟨grad.storage, applyPermSel (reversePerm p) (applyPermSel p grad.shape),
      applyPermSel (reversePerm p) (applyPermSel p grad.strides)⟩ : TensorData) = grad
    rw [applyPermSel_roundtrip p _ hnd hlt gs, applyPermSel_roundtrip p _ hnd hlt gst]

/-- Witness for claim C6: the order `[2, 0, 1]` on a 1-by-2-by-3 tensor
round-trips through its backward inverse. -/
theorem c6_permute_backward_inverse_roundtrip_witness :
    permuteTD (permuteTD ⟨[1, 2, 3, 4, 5, 6], [1, 2, 3], [6, 3, 1]⟩ [2, 0, 1])
        (reversePerm [2, 0, 1])
      = ⟨[1, 2, 3, 4, 5, 6], [1, 2, 3], [6, 3, 1]⟩ ∧
    (permuteBackward [2, 0, 1]
        (permuteTD ⟨[10, 20, 30, 40, 50, 60], [1, 2, 3], [6, 3, 1]⟩ [2, 0, 1])).1
      = ⟨[10, 20, 30, 40, 50, 60], [1, 2, 3], [6, 3, 1]⟩ := by
  have h := c6_permute_backward_inverse_roundtrip
    ⟨[1, 2, 3, 4, 5, 6], [1, 2, 3], [6, 3, 1]⟩
    ⟨[10, 20, 30, 40, 50, 60], [1, 2, 3], [6, 3, 1]⟩ [2, 0, 1]
    (by decide) (by decide) (by decide) (by decide) (by decide) (by decide)
  exact ⟨h.2.2.2.1, h.2.2.2.2⟩

/-- The shape `View.forward` requests: the integer entries of the shape
tensor, read off positionally. -/
def requestedShape (shape : Tensor) : Shape :=
  (List.range (sizeT shape)).map (fun i => qToDim (shape.storage.getD i 0))

/-- Row-major (contiguous) strides of a shape, as produced for a freshly
made tensor. -/
def contigStrides : Shape → List Nat
  | [] => []
  | _ :: ds => ds.prod :: contigStrides ds

/-- Embedding of `View.forward` from the source: the assertion
`a._tensor.is_contiguous()` is a fatal failure on a non-contiguous buffer
(modelled as `none`; the contiguity check is modelled from the spec as the
strides being the row-major strides of the shape, the layout on which
reshape-without-copy is sound); on a contiguous buffer the result is
`Tensor.make` of the same storage with the requested shape. -/
def viewForward (a : TensorData) (shape : Tensor) : Option TensorData :=
  if a.strides = contigStrides a.shape then
    some ⟨a.storage, requestedShape shape, contigStrides (requestedShape shape)⟩
  else none

/-- Claim C7: `View.forward` fails (fatally) exactly on non-contiguous
input, and on contiguous input returns a tensor with the requested shape
sharing the same storage. -/
theorem c7_view_forward_contiguity (a : TensorData) (shape : Tensor) :
    (a.strides = contigStrides a.shape → viewForward a shape
      = some ⟨a.storage, requestedShape shape, contigStrides (requestedShape shape)⟩) ∧
    (decide (a.strides = contigStrides a.shape) = false → viewForward a shape = none) ∧
    (∀ r, viewForward a shape = some r →
      a.strides = contigStrides a.shape ∧ r.storage = a.storage ∧
        r.shape = requestedShape shape) := by
  refine ⟨fun h => by rw [viewForward, if_pos h],
    fun h => by rw [viewForward, if_neg (of_decide_eq_false h)], ?_⟩
  intro r hr
  by_cases h : a.strides = contigStrides a.shape
  · rw [viewForward, if_pos h] at hr
    obtain rfl : (⟨a.storage, requestedShape shape,
        contigStrides (requestedShape shape)⟩ : TensorData) = r := Option.some.inj hr
    exact ⟨h, rfl, rfl⟩
  · rw [viewForward, if_neg h] at hr
    exact absurd hr (by simp)

/-- Witness for claim C7: a contiguous 2-by-2 buffer views to shape `[4]`
sharing storage, while the same buffer with transposed (non-contiguous)
strides fails. -/
theorem c7_view_forward_contiguity_witness :
    viewForward ⟨[1, 2, 3, 4], [2, 2], [2, 1]⟩ ⟨[1], [4], 0⟩
      = some ⟨[1, 2, 3, 4], requestedShape ⟨[1], [4], 0⟩,
          contigStrides (requestedShape ⟨[1], [4], 0⟩)⟩ ∧
    viewForward ⟨[1, 2, 3, 4], [2, 2], [1, 2]⟩ ⟨[1], [4], 0⟩ = none :=
  ⟨(c7_view_forward_contiguity ⟨[1, 2, 3, 4], [2, 2], [2, 1]⟩ ⟨[1], [4], 0⟩).1
      (by decide),
    (c7_view_forward_contiguity ⟨[1, 2, 3, 4], [2, 2], [1, 2]⟩ ⟨[1], [4], 0⟩).2.1
      (by decide)⟩

/-- Entry `(i, j)` of a rank-2 tensor, read from the row-major storage. -/
def entry2 (t : Tensor) (i j : Nat) : ℚ :=
  t.storage.getD (i * t.shape.getD 1 0 + j) 0

/-- Modelled from the spec: the backend `matrix_multiply` primitive on
rank-2 operands, the standard "product over the trailing two dimensions". -/
def mm2 (a b : Tensor) : Tensor :=
  ⟨[a.shape.getD 0 0, b.shape.getD 1 0],
    (List.range (a.shape.getD 0 0 * b.shape.getD 1 0)).map (fun t =>
      ∑ s ∈ Finset.range (a.shape.getD 1 0),
        a.storage.getD ((t / b.shape.getD 1 0) * a.shape.getD 1 0 + s) 0
          * b.storage.getD (s * b.shape.getD 1 0 + t % b.shape.getD 1 0) 0),
    a.backend⟩

/-- The transposition order built inside `MatMul.backward`:
`order = list(range(a.dims))` with its last two entries swapped (reading the
old values, as the simultaneous Python tuple assignment does). -/
def swapLast (l : List Nat) : List Nat :=
  (l.set (l.length - 2) (l.getD (l.length - 1) 0)).set (l.length - 1) (l.getD (l.length - 2) 0)

/-- Input multi-index corresponding to output multi-index `idx` under an
axis permutation `p`: the index `j` with `j[p[k]] = idx[k]`. -/
def scatterIdx (p idx : List Nat) : List Nat :=
  (List.range p.length).foldl (fun acc k => acc.set (p.getD k 0) (idx.getD k 0))
    (List.replicate p.length 0)

/-- Modelled from the spec: value-level semantics of the axis permutation
`a._new(a._tensor.permute(*order))`: output position `i` of the permuted
logical tensor reads input position `j` where `j[p[k]] = i[k]`. -/
def permuteT (a : Tensor) (p : List Nat) : Tensor :=
  ⟨applyPermSel p a.shape,
    (List.range (applyPermSel p a.shape).prod).map (fun t =>
      a.storage.getD
        (fromIndex a.shape (scatterIdx p (toIndex (applyPermSel p a.shape) t))) 0),
    a.backend⟩

/-- The local `transpose` helper of `MatMul.backward`: permute by the
identity order with the last two axes swapped. -/
def transposeLast (a : Tensor) : Tensor :=
  permuteT a (swapLast (List.range a.shape.length))

/-- Embedding of `MatMul.backward` from the source: the pair
`(matmul(grad_output, transpose(t2)), matmul(transpose(t1), grad_output))`
built from the operands saved by the forward pass. -/
def matMulBackward (t1 t2 grad : Tensor) : Tensor × Tensor :=
  (mm2 grad (transposeLast t2), mm2 (transposeLast t1) grad)

/-- Reading a mapped range list at an in-range position yields the function
value. -/
theorem getD_map_range (f : Nat → ℚ) (N t : Nat) (ht : t < N) :
    ((List.range N).map f).getD t 0 = f t := by
  rw [List.getD_eq_getElem?_getD, List.getElem?_map, List.getElem?_range ht]
  rfl

/-- Entry `(i, j)` of a rank-2 matrix product is the dot product of row `i`
of the left operand with column `j` of the right operand. -/
theorem mm2_entry (a b : Tensor) (i j : Nat)
    (hi : i < a.shape.getD 0 0) (hj : j < b.shape.getD 1 0) :
    entry2 (mm2 a b) i j
      = ∑ s ∈ Finset.range (a.shape.getD 1 0),
          a.storage.getD (i * a.shape.getD 1 0 + s) 0
            * b.storage.getD (s * b.shape.getD 1 0 + j) 0 := by
  have hN : 0 < b.shape.getD 1 0 := Nat.lt_of_le_of_lt (Nat.zero_le j) hj
  have h1 : i * b.shape.getD 1 0 + j < (i + 1) * b.shape.getD 1 0 := by
    rw [Nat.add_mul, Nat.one_mul]
    exact Nat.add_lt_add_left hj _
  have h2 : (i + 1) * b.shape.getD 1 0 ≤ a.shape.getD 0 0 * b.shape.getD 1 0 :=
    Nat.mul_le_mul_right _ hi
  have ht : i * b.shape.getD 1 0 + j < a.shape.getD 0 0 * b.shape.getD 1 0 :=
    Nat.lt_of_lt_of_le h1 h2
  have hdiv : (i * b.shape.getD 1 0 + j) / b.shape.getD 1 0 = i := by
    rw [Nat.mul_comm i _, Nat.mul_add_div hN, Nat.div_eq_of_lt hj, Nat.add_zero]
  have hmod : (i * b.shape.getD 1 0 + j) % b.shape.getD 1 0 = j := by
    rw [Nat.mul_comm i _, Nat.mul_add_mod, Nat.mod_eq_of_lt hj]
  show (mm2 a b).storage.getD (i * (mm2 a b).shape.getD 1 0 + j) 0 = _
  have hsh : (mm2 a b).shape.getD 1 0 = b.shape.getD 1 0 := rfl
  rw [hsh]
  have hst : (mm2 a b).storage
      = (List.range (a.shape.getD 0 0 * b.shape.getD 1 0)).map (fun t =>
          ∑ s ∈ Finset.range (a.shape.getD 1 0),
            a.storage.getD ((t / b.shape.getD 1 0) * a.shape.getD 1 0 + s) 0
              * b.storage.getD (s * b.shape.getD 1 0 + t % b.shape.getD 1 0) 0) := rfl
  rw [hst, getD_map_range _ _ _ ht, hdiv, hmod]

/-- Shape of the rank-2 transpose: the two dimensions swapped. -/
theorem transposeLast2_shape (B : Tensor) (kk nn : Nat) (hB : B.shape = [kk, nn]) :
    (transposeLast B).shape = [nn, kk] := by
  show applyPermSel (swapLast (List.range B.shape.length)) B.shape = [nn, kk]
  rw [hB]
  rfl

/-- Storage of the rank-2 transpose: position `(j, l)` of the transposed
layout holds entry `(l, j)` of the original. -/
theorem transposeLast2_storage (B : Tensor) (kk nn : Nat) (hB : B.shape = [kk, nn])
    (jj ll : Nat) (hj : jj < nn) (hl : ll < kk) :
    (transposeLast B).storage.getD (jj * kk + ll) 0
      = B.storage.getD (ll * nn + jj) 0 := by
  have hkk : 0 < kk := Nat.lt_of_le_of_lt (Nat.zero_le ll) hl
  have e : transposeLast B = permuteT B [1, 0] := by
    rw [transposeLast, hB]
    rfl
  rw [e]
  have hstor : (permuteT B [1, 0]).storage
      = (List.range ((applyPermSel [1, 0] B.shape).prod)).map (fun t =>
          B.storage.getD
            (fromIndex B.shape (scatterIdx [1, 0] (toIndex (applyPermSel [1, 0] B.shape) t))) 0) :=
    rfl
  rw [hstor, hB]
  have hp : applyPermSel [1, 0] ([kk, nn] : Shape) = [nn, kk] := rfl
  rw [hp]
  have hrange : jj * kk + ll < ([nn, kk] : Shape).prod := by
    show jj * kk + ll < nn * (kk * 1)
    rw [Nat.mul_one]
    have h1 : jj * kk + ll < (jj + 1) * kk := by
      rw [Nat.add_mul, Nat.one_mul]
      exact Nat.add_lt_add_left hl _
    exact Nat.lt_of_lt_of_le h1 (Nat.mul_le_mul_right _ hj)
  rw [getD_map_range _ _ _ hrange]
  have hti : toIndex ([nn, kk] : Shape) (jj * kk + ll) = [jj, ll] := by
    simp only [toIndex, List.prod_cons, List.prod_nil, Nat.mul_one, Nat.div_one]
    rw [Nat.mul_comm jj kk, Nat.mul_add_div hkk, Nat.div_eq_of_lt hl, Nat.add_zero,
      Nat.mul_add_mod, Nat.mod_eq_of_lt hl]
  rw [hti]
  have hsc : scatterIdx [1, 0] [jj, ll] = [ll, jj] := rfl
  rw [hsc]
  have hfi : fromIndex ([kk, nn] : Shape) [ll, jj] = ll * nn + jj := by
    simp only [fromIndex, List.prod_cons, List.prod_nil, Nat.mul_one, Nat.add_zero]
  rw [hfi]

/-- Claim C5: for `A` of shape `m` by `k`, `B` of shape `k` by `n` and
upstream gradient `G` of shape `m` by `n`, `MatMul.backward` returns the
pair `(G * transpose B, transpose A * G)` built from the saved operands
with the last two axes swapped: entrywise, the first gradient is
`sum_j G[i,j] * B[l,j]` and the second is `sum_i A[i,s] * G[i,j]`. -/
theorem c5_matmul_backward_formula (A B G : Tensor) (m k n : Nat)
    (hA : A.shape = [m, k]) (hB : B.shape = [k, n]) (hG : G.shape = [m, n]) :
    ((matMulBackward A B G).1.shape = [m, k]) ∧
    ((matMulBackward A B G).2.shape = [k, n]) ∧
    (∀ i l, i < m → l < k →
      entry2 (matMulBackward A B G).1 i l
        = ∑ j ∈ Finset.range n, entry2 G i j * entry2 B l j) ∧
    (∀ s j, s < k → j < n →
      entry2 (matMulBackward A B G).2 s j
        = ∑ i ∈ Finset.range m, entry2 A i s * entry2 G i j) := by
  have hBt := transposeLast2_shape B k n hB
  have hAt := transposeLast2_shape A m k hA
  refine ⟨?_, ?_, ?_, ?_⟩
  · show [G.shape.getD 0 0, (transposeLast B).shape.getD 1 0] = [m, k]
    rw [hG, hBt]
    rfl
  · show [(transposeLast A).shape.getD 0 0, G.shape.getD 1 0] = [k, n]
    rw [hAt, hG]
    rfl
  · intro i l hi hl
    have h := mm2_entry G (transposeLast B) i l (by rw [hG]; exact hi)
      (by rw [hBt]; exact hl)
    rw [show (matMulBackward A B G).1 = mm2 G (transposeLast B) from rfl, h]
    simp only [entry2]
    rw [hG, hB, hBt]
    show ∑ s ∈ Finset.range n,
        G.storage.getD (i * n + s) 0 * (transposeLast B).storage.getD (s * k + l) 0
      = ∑ j ∈ Finset.range n, G.storage.getD (i * n + j) 0 * B.storage.getD (l * n + j) 0
    refine Finset.sum_congr rfl (fun s hs => ?_)
    rw [transposeLast2_storage B k n hB s l (Finset.mem_range.mp hs) hl]
  · intro s j hs hj
    have h := mm2_entry (transposeLast A) G s j (by rw [hAt]; exact hs)
      (by rw [hG]; exact hj)
    rw [show (matMulBackward A B G).2 = mm2 (transposeLast A) G from rfl, h]
    simp only [entry2]
    rw [hAt, hA, hG]
    show ∑ r ∈ Finset.range m,
        (transposeLast A).storage.getD (s * m + r) 0 * G.storage.getD (r * n + j) 0
      = ∑ i ∈ Finset.range m, A.storage.getD (i * k + s) 0 * G.storage.getD (i * n + j) 0
    refine Finset.sum_congr rfl (fun r hr => ?_)
    rw [transposeLast2_storage A m k hA s r hs (Finset.mem_range.mp hr)]

/-- Witness for claim C5: the gradient w.r.t. `A` at entry `(0, 1)` for
concrete 2-by-2 operands equals the dot product of row 0 of `G` with row 1
of `B`. -/
theorem c5_matmul_backward_formula_witness :
    entry2 (matMulBackward ⟨[2, 2], [1, 2, 3, 4], 0⟩ ⟨[2, 2], [5, 6, 7, 8], 0⟩
        ⟨[2, 2], [1, 2, 3, 4], 0⟩).1 0 1
      = ∑ j ∈ Finset.range 2,
          entry2 ⟨[2, 2], [1, 2, 3, 4], 0⟩ 0 j * entry2 ⟨[2, 2], [5, 6, 7, 8], 0⟩ 1 j :=
  (c5_matmul_backward_formula ⟨[2, 2], [1, 2, 3, 4], 0⟩ ⟨[2, 2], [5, 6, 7, 8], 0⟩
      ⟨[2, 2], [1, 2, 3, 4], 0⟩ 2 2 2 rfl rfl rfl).2.2.1 0 1
    (by decide) (by decide)

/-- Broadcasting a shape against itself succeeds and changes nothing. -/
theorem bcRev_self (l : List Nat) : bcRev l l = some l := by
  induction l with
  | nil => rfl
  | cons x xs ih => simp [bcRev, bcDim, ih]

/-- The broadcast of equal shapes is that shape. -/
theorem bcShape_self (s : Shape) : bcShape s s = some s := by
  simp [bcShape, bcRev_self]

/-- Row-major encode inverts row-major decode for in-range flat positions. -/
theorem fromIndex_toIndex (s : Shape) : ∀ t, t < s.prod → fromIndex s (toIndex s t) = t := by
  induction s with
  | nil =>
    intro t ht
    have h0 : t = 0 := Nat.lt_one_iff.mp (by simpa using ht)
    simp [toIndex, fromIndex, h0]
  | cons d ds ih =>
    intro t ht
    have hP : 0 < ds.prod := by
      rcases Nat.eq_zero_or_pos ds.prod with h0 | h
      · rw [List.prod_cons, h0, Nat.mul_zero] at ht
        exact absurd ht (Nat.not_lt_zero t)
      · exact h
    show (t / ds.prod) * ds.prod + fromIndex ds (toIndex ds (t % ds.prod)) = t
    rw [ih _ (Nat.mod_lt t hP), Nat.mul_comm, Nat.div_add_mod]

/-- The broadcast index adjustment is the identity whenever the reading
shape equals the output shape: every size-1 dimension already has index 0. -/
theorem zipWith_broadcast_id (s : Shape) : ∀ t, t < s.prod →
    List.zipWith (fun (i d : Nat) => if d = 1 then 0 else i) (toIndex s t) s
      = toIndex s t := by
  induction s with
  | nil => intro t _; rfl
  | cons d ds ih =>
    intro t ht
    have hP : 0 < ds.prod := by
      rcases Nat.eq_zero_or_pos ds.prod with h0 | h
      · rw [List.prod_cons, h0, Nat.mul_zero] at ht
        exact absurd ht (Nat.not_lt_zero t)
      · exact h
    show (if d = 1 then 0 else t / ds.prod) :: List.zipWith _ (toIndex ds (t % ds.prod)) ds
      = (t / ds.prod) :: toIndex ds (t % ds.prod)
    by_cases hd : d = 1
    · subst hd
      have htP : t < ds.prod := by
        rw [List.prod_cons, Nat.one_mul] at ht
        exact ht
      rw [if_pos rfl, Nat.div_eq_of_lt htP, ih _ (Nat.mod_lt t hP)]
    · rw [if_neg hd, ih _ (Nat.mod_lt t hP)]

/-- Broadcast-reading a tensor through its own shape is the plain flat
storage read. -/
theorem bGet_same (a : Tensor) (s : Shape) (hs : a.shape = s) (t : Nat)
    (ht : t < s.prod) : bGet a s t = a.storage.getD t 0 := by
  simp only [bGet, hs, Nat.sub_self, List.drop_zero]
  rw [zipWith_broadcast_id s t ht, fromIndex_toIndex s t ht]

/-- A broadcast zip of equally-shaped tensors is the plain elementwise
combination over flat positions. -/
theorem zipB_same (f : ℚ → ℚ → ℚ) (a b : Tensor) (hab : a.shape = b.shape) :
    zipB f a b
      = ⟨b.shape, (List.range b.shape.prod).map
          (fun t => f (a.storage.getD t 0) (b.storage.getD t 0)), a.backend⟩ := by
  have hbc : bcShape a.shape b.shape = some b.shape := by
    rw [hab]
    exact bcShape_self _
  simp only [zipB, hbc]
  congr 1
  refine List.map_congr_left (fun t htm => ?_)
  have ht : t < b.shape.prod := List.mem_range.mp htm
  rw [bGet_same a _ hab t ht, bGet_same b _ rfl t ht]

/-- Modelled from the spec: `Tensor.sum()` with no argument (tensor.py is
outside src/), which takes "the sum of the function's output elements" as a
one-element tensor. -/
def sumAllT (t : Tensor) : Tensor := ⟨[1], [t.storage.sum], t.backend⟩

/-- Modelled from the spec: the elementwise write `up[ind] = epsilon`
(`Tensor.__setitem__` is outside src/): set the storage cell at the
row-major position of multi-index `ind`. -/
def setAtIdx (t : Tensor) (ind : List Nat) (v : ℚ) : Tensor :=
  ⟨t.shape, t.storage.set (fromIndex t.shape ind) v, t.backend⟩

/-- Embedding of `grad_central_difference` from the source: build `up` as a
zero tensor with `epsilon` written at `ind`, evaluate `f` on the argument
lists with entry `arg` replaced by `x + up` and `x - up`, subtract the
summed outputs and divide element 0 by `2 * epsilon`. -/
def gradCentralDifference (f : List Tensor → Tensor) (vals : List Tensor)
    (arg : Nat) (eps : ℚ) (ind : List Nat) : ℚ :=
  let x := vals.getD arg (zerosT [])
  let up := setAtIdx (zerosT x.shape) ind eps
  let vals1 := vals.mapIdx (fun j v => if j ≠ arg then v else zipB (fun u w => u + w) v up)
  let vals2 := vals.mapIdx (fun j v => if j ≠ arg then v else zipB (fun u w => u - w) v up)
  let delta := zipB (fun u w => u - w) (sumAllT (f vals1)) (sumAllT (f vals2))
  delta.storage.getD 0 0 / (2 * eps)

/-- Embedding of the acceptance test of `grad_check`:
`np.testing.assert_allclose(x.grad[ind], check, 1e-2, 1e-2)` passes its
positional arguments as `rtol = 1e-2` and `atol = 1e-2`, accepting when the
absolute difference is at most `atol + rtol * |desired|` (numpy semantics,
modelled from the spec's tolerance description). -/
def gradCheckAccept (g c : ℚ) : Bool :=
  decide (|g - c| ≤ 1 / 100 + (1 / 100) * |c|)

/-- The modified argument used to state the central-difference claim: entry
`ind` of `x` shifted by `e`. -/
def bumpAt (x : Tensor) (ind : List Nat) (e : ℚ) : Tensor :=
  ⟨x.shape, x.storage.set (fromIndex x.shape ind)
      (x.storage.getD (fromIndex x.shape ind) 0 + e), x.backend⟩

/-- An indexed comprehension replacing only position `arg` equals a `set`
at that position. -/
theorem mapIdx_if_set (g : Tensor → Tensor) (vals : List Tensor) (arg : Nat)
    (harg : arg < vals.length) :
    vals.mapIdx (fun j v => if j ≠ arg then v else g v)
      = vals.set arg (g (vals.getD arg (zerosT []))) := by
  apply List.ext_getElem
  · simp
  · intro i h1 h2
    rw [List.getElem_mapIdx]
    by_cases hia : i = arg
    · subst hia
      rw [if_neg (by simp), List.getElem_set_self]
      congr 1
      rw [List.getD_eq_getElem?_getD, List.getElem?_eq_getElem harg]
      rfl
    · rw [if_pos hia, List.getElem_set_ne (Ne.symm hia)]

/-- Zipping a tensor with a zero tensor carrying a single written cell
changes exactly that cell of the storage. -/
theorem zip_setAt (op : ℚ → ℚ → ℚ) (hop0 : ∀ q, op q 0 = q) (x : Tensor)
    (ind : List Nat) (e : ℚ) (hlen : x.storage.length = x.shape.prod)
    (hind : fromIndex x.shape ind < x.shape.prod) :
    zipB op x (setAtIdx (zerosT x.shape) ind e)
      = ⟨x.shape, x.storage.set (fromIndex x.shape ind)
          (op (x.storage.getD (fromIndex x.shape ind) 0) e), x.backend⟩ := by
  rw [zipB_same op x (setAtIdx (zerosT x.shape) ind e) rfl]
  rw [show (setAtIdx (zerosT x.shape) ind e).shape = x.shape from rfl]
  congr 1
  apply ext_getD (0 : ℚ)
  · rw [List.length_map, List.length_range, List.length_set, hlen]
  · intro t ht
    have htN : t < x.shape.prod := by
      rw [List.length_map, List.length_range] at ht
      exact ht
    have hxl : t < x.storage.length := by
      rw [hlen]
      exact htN
    have hindl : fromIndex x.shape ind < x.storage.length := by
      rw [hlen]
      exact hind
    rw [getD_map_range _ _ _ htN]
    by_cases htp : t = fromIndex x.shape ind
    · subst htp
      have hup : (setAtIdx (zerosT x.shape) ind e).storage.getD (fromIndex x.shape ind) 0
          = e := by
        show ((List.replicate x.shape.prod 0).set (fromIndex x.shape ind) e).getD
            (fromIndex x.shape ind) 0 = e
        exact getD_set_self_d 0 _ _ _ (by simpa using hind)
      rw [hup, getD_set_self_d 0 x.storage _ _ hindl]
    · have hup : (setAtIdx (zerosT x.shape) ind e).storage.getD t 0 = 0 := by
        show ((List.replicate x.shape.prod 0).set (fromIndex x.shape ind) e).getD t 0 = 0
        rw [getD_set_ne_d 0 _ _ _ _ (Ne.symm htp), List.getD_eq_getElem?_getD,
          List.getElem?_replicate]
        simp [htN]
      rw [hup, hop0, getD_set_ne_d 0 x.storage _ _ _ (Ne.symm htp)]

/-- Claim C8: the central-difference estimate equals the sum of the
elements of `f` at the argument list whose entry `arg` has element `ind`
increased by `eps`, minus the same sum with that element decreased by
`eps`, divided by `2 * eps`; and `grad_check` accepts the analytic gradient
against the estimate exactly within absolute and relative tolerance
`1e-2`. -/
theorem c8_grad_central_difference_spec (f : List Tensor → Tensor)
    (vals : List Tensor) (arg : Nat) (eps : ℚ) (ind : List Nat)
    (harg : arg < vals.length)
    (hlen : (vals.getD arg (zerosT [])).storage.length
        = (vals.getD arg (zerosT [])).shape.prod)
    (hind : fromIndex (vals.getD arg (zerosT [])).shape ind
        < (vals.getD arg (zerosT [])).shape.prod) :
    gradCentralDifference f vals arg eps ind
      = ((f (vals.set arg (bumpAt (vals.getD arg (zerosT [])) ind eps))).storage.sum
          - (f (vals.set arg (bumpAt (vals.getD arg (zerosT [])) ind (-eps)))).storage.sum)
          / (2 * eps) ∧
    (∀ g c : ℚ, gradCheckAccept g c = true ↔ |g - c| ≤ 1 / 100 + (1 / 100) * |c|) := by
  constructor
  · have hadd' : zipB (fun u w => u + w) (vals.getD arg (zerosT []))
        (setAtIdx (zerosT (vals.getD arg (zerosT [])).shape) ind eps)
        = bumpAt (vals.getD arg (zerosT [])) ind eps :=
      zip_setAt (fun u w => u + w) (fun q => add_zero q)
        (vals.getD arg (zerosT [])) ind eps hlen hind
    have hsub' : zipB (fun u w => u - w) (vals.getD arg (zerosT []))
        (setAtIdx (zerosT (vals.getD arg (zerosT [])).shape) ind eps)
        = bumpAt (vals.getD arg (zerosT [])) ind (-eps) := by
      rw [zip_setAt (fun u w => u - w) (fun q => sub_zero q)
        (vals.getD arg (zerosT [])) ind eps hlen hind, bumpAt, sub_eq_add_neg]
    simp only [gradCentralDifference]
    rw [mapIdx_if_set (fun v => zipB (fun u w => u + w) v
        (setAtIdx (zerosT (vals.getD arg (zerosT [])).shape) ind eps)) vals arg harg,
      mapIdx_if_set (fun v => zipB (fun u w => u - w) v
        (setAtIdx (zerosT (vals.getD arg (zerosT [])).shape) ind eps)) vals arg harg,
      hadd', hsub']
    rfl
  · intro g c
    rw [gradCheckAccept]
    exact decide_eq_true_iff

/-- Witness for claim C8: the estimate for the identity function on the
single argument `[1, 2]` at index `(1,)` with step 1 equals the claimed
difference quotient. -/
theorem c8_grad_central_difference_spec_witness :
    gradCentralDifference (fun l => l.getD 0 (zerosT [])) [⟨[2], [1, 2], 0⟩] 0 1 [1]
      = (((fun (l : List Tensor) => l.getD 0 (zerosT []))
            ([(⟨[2], [1, 2], 0⟩ : Tensor)].set 0
              (bumpAt ([(⟨[2], [1, 2], 0⟩ : Tensor)].getD 0 (zerosT [])) [1] 1))).storage.sum
          - ((fun (l : List Tensor) => l.getD 0 (zerosT []))
            ([(⟨[2], [1, 2], 0⟩ : Tensor)].set 0
              (bumpAt ([(⟨[2], [1, 2], 0⟩ : Tensor)].getD 0 (zerosT []))
                [1] (-1)))).storage.sum)
          / (2 * 1) :=
  (c8_grad_central_difference_spec (fun l => l.getD 0 (zerosT []))
      [⟨[2], [1, 2], 0⟩] 0 1 [1] (by decide) (by decide) (by decide)).1

/-- Mutable per-argument state seen by `grad_check`: the requires-gradient
flag and the accumulated-gradient slot of a tensor argument. -/
structure TVar where
  requiresGrad : Bool
  grad : Option Storage
  deriving Repr, DecidableEq

/-- Embedding of the state effects of `grad_check` on its arguments and on
the global random state.  The prologue is from the source: every argument
gets `requires_grad_(True)` and `zero_grad_()` (clearing the gradient slot,
modelled from the spec's "cleared explicitly by an external reset
operation"), then `random.seed(10)` installs seed 10 with zero draws.
Modelled from the spec: the backward run then "deposit[s] a gradient into
every ancestor leaf that requires it" (the `deposits` parameter, one per
argument, as the source's later `assert x.grad is not None` expects), and
the per-argument `x._tensor.sample()` calls each advance the random state
by one draw. -/
def gradCheckEffects (deposits : List Storage) (vals : List TVar)
    (rng : Nat × Nat) : List TVar × (Nat × Nat) :=
  let vs1 := vals.map (fun x => { x with requiresGrad := true, grad := none })
  let rng1 : Nat × Nat := (10, 0)
  let vs2 := List.zipWith (fun (x : TVar) (g : Storage) => { x with grad := some g })
    vs1 deposits
  (vs2, (rng1.1, rng1.2 + vs2.length))

/-- Claim C10 counterexample: with one argument and a backward pass that
deposits the gradient `[5]`, the state after `grad_check` has the argument
gradient slot holding `[5]`: neither cleared (`none`) nor a zero tensor, so
the zeroing does not persist after the call returns. -/
theorem c10_grad_check_effects_cex :
    (gradCheckEffects [[5]] [⟨false, none⟩] (0, 0)).1 = [⟨true, some [5]⟩] ∧
    decide ((some ([5] : Storage) : Option Storage) = none) = false ∧
    decide (([5] : Storage) = [0]) = false :=
  ⟨rfl, rfl, rfl⟩

/-- Claim C10 as amended: before evaluating `f`, `grad_check` sets every
argument's requires-gradient flag to true, clears its gradient slot and
reseeds the global generator to 10; after it returns the flag change
persists, but each argument's gradient slot has been repopulated by the
backward pass with the deposited gradient, and the random state has
advanced by one sample draw per argument. -/
theorem c10_grad_check_effects_spec (deposits : List Storage) (vals : List TVar)
    (rng : Nat × Nat) (hlen : deposits.length = vals.length) :
    ((vals.map (fun x => { x with requiresGrad := true, grad := none })).all
        (fun x => x.requiresGrad && x.grad.isNone) = true) ∧
    ((gradCheckEffects deposits vals rng).1.length = vals.length) ∧
    (∀ i, i < vals.length →
      ((gradCheckEffects deposits vals rng).1.getD i ⟨false, none⟩).requiresGrad = true ∧
      ((gradCheckEffects deposits vals rng).1.getD i ⟨false, none⟩).grad
        = some (deposits.getD i [])) ∧
    ((gradCheckEffects deposits vals rng).2 = (10, vals.length)) := by
  have hl2 : (gradCheckEffects deposits vals rng).1.length = vals.length := by
    simp only [gradCheckEffects, List.length_zipWith, List.length_map, hlen,
      Nat.min_self]
  refine ⟨?_, hl2, ?_, ?_⟩
  · simp
  · intro i hi
    have hid : i < deposits.length := by
      rw [hlen]
      exact hi
    have hgel : (gradCheckEffects deposits vals rng).1.getD i ⟨false, none⟩
        = ⟨true, some (deposits.getD i [])⟩ := by
      simp only [gradCheckEffects]
      rw [List.getD_eq_getElem?_getD, List.getElem?_zipWith, List.getElem?_map,
        List.getElem?_eq_getElem hi, List.getElem?_eq_getElem hid,
        List.getD_eq_getElem?_getD deposits i, List.getElem?_eq_getElem hid]
      rfl
    rw [hgel]
    exact ⟨rfl, rfl⟩
  · show (10, 0 + (gradCheckEffects deposits vals rng).1.length) = (10, vals.length)
    rw [Nat.zero_add, hl2]

/-- Witness for claim C10 as amended: a single argument starting without
gradient tracking, with deposit `[7]`, ends with the flag set and the
deposited gradient in the slot. -/
theorem c10_grad_check_effects_spec_witness :
    ((gradCheckEffects [[7]] [⟨false, some [0]⟩] (3, 9)).1.getD 0
        ⟨false, none⟩).requiresGrad = true ∧
    ((gradCheckEffects [[7]] [⟨false, some [0]⟩] (3, 9)).1.getD 0 ⟨false, none⟩).grad
      = some (([[7]] : List Storage).getD 0 []) :=
  (c10_grad_check_effects_spec [[7]] [⟨false, some [0]⟩] (3, 9) rfl).2.2.1 0
    (by decide)

end MiniTorch


